import Mathlib

/-
Shallow embedding of src/private_ip_statistics.py.

Modelling conventions, fixed once for the whole file:

* Python strings are Lean Strings (lists of characters).  The character
  classes used by the program (re module classes \d and \s, str.strip,
  str.upper, int(), float()) are modelled at ASCII level, which is exactly
  Python's behaviour on ASCII input; theorems that quantify over arbitrary
  strings carry an asciiStr hypothesis so that the model provably agrees
  with the program on the quantified domain.

* A Python function that can raise an uncaught exception is embedded as an
  Option- or Except-valued function; none / Except.error is the raised
  exception, some / Except.ok the normal return.

* float() is modelled exactly, as the rational numerator/denominator pair
  of the decimal literal.  Every decimal literal appearing in the claims
  (and every quotient by a power of 1024 below 2^53) is exactly
  representable as an IEEE double, so on the inputs reasoned about here
  the exact model coincides with Python's float arithmetic.  int(x) for
  the nonnegative x arising here is truncation toward zero, i.e. Nat
  division by the denominator.

* The regular expressions of the source are compiled by hand into
  deterministic character scans.  Both patterns are backtracking-free in
  the following sense, so the scans are faithful:
  - in ([\d\.]+)\s*(TB|GB|MB|KB|B), shortening the greedy [\d\.]+ or \s*
    leaves a digit, dot or space at the position where a unit letter is
    required, so no backtracking alternative can ever succeed;
  - in ^(\d{1,3}\.){3}\d{1,3}$, shortening a greedy \d{1,3} leaves a digit
    where the dot (or the end) is required, hence each group matches
    exactly the maximal digit run, provided that run has length 1..3.
  Python's $ matches at the end of the string or just before a single
  trailing newline; the scan below reproduces that.
-/

/-- Character class of Python's ASCII whitespace, as stripped by str.strip
and matched by the regex class \s. -/
def isPySpace (c : Char) : Bool :=
  decide (c.toNat = 32 ∨ c.toNat = 9 ∨ c.toNat = 10 ∨ c.toNat = 13 ∨
          c.toNat = 11 ∨ c.toNat = 12)

/-- Character class of the regex \d (ASCII decimal digit). -/
def isDig (c : Char) : Bool :=
  decide (48 ≤ c.toNat ∧ c.toNat ≤ 57)

/-- Character class of the regex [\d\.]: a digit or a literal dot. -/
def isNumChar (c : Char) : Bool :=
  isDig c || decide (c.toNat = 46)

/-- Model of str.upper on one character (ASCII case mapping). -/
def pyUpper (c : Char) : Char :=
  if 97 ≤ c.toNat ∧ c.toNat ≤ 122 then Char.ofNat (c.toNat - 32) else c

/-- Model of str.strip: drop whitespace from both ends. -/
def pyStrip (l : List Char) : List Char :=
  (l.dropWhile isPySpace).rdropWhile isPySpace

/-- String-level wrapper of pyStrip. -/
def pyStripS (s : String) : String :=
  String.mk (pyStrip s.data)

/-- Numeric value of a digit string (most significant digit first). -/
def digitsVal (l : List Char) : Nat :=
  l.foldl (fun a c => 10 * a + (c.toNat - 48)) 0

/-- Decimal digit character for a value below ten. -/
def digitChar (n : Nat) : Char :=
  Char.ofNat (48 + n)

/-- Fuel-indexed decimal rendering of a natural number. -/
def natStrAux : Nat → Nat → List Char
  | 0, _ => []
  | fuel + 1, n =>
    if n < 10 then [digitChar n]
    else natStrAux fuel (n / 10) ++ [digitChar (n % 10)]

/-- Decimal rendering of a natural number, as produced by Python's str()
and the f-string placeholders of the source. -/
def natStr (n : Nat) : List Char :=
  natStrAux (n + 1) n

/-- Two-digit zero-padded rendering, as produced by the :02d format of the
source (for the month numbers 1..12 this is Python's exact output). -/
def pad2 (n : Nat) : List Char :=
  if n < 10 then '0' :: natStr n else natStr n

/-- Model of Python int() on the strings reachable in this program: an
optional-whitespace-surrounded nonempty ASCII digit string.  (Signs,
underscores and non-ASCII digits, which Python would also accept, never
reach int() here: the regex of is_private_ip only lets ASCII digit groups
through, at most followed by the one newline tolerated by $.) -/
def pyInt (cs : List Char) : Option Nat :=
  let t := pyStrip cs
  if t ≠ [] ∧ t.all isDig then some (digitsVal t) else none

/-- Model of Python float() restricted to nonempty [\d\.]+ strings, the
only strings the source ever passes to it: valid iff the string holds at
least one digit and at most one dot.  The value is returned exactly, as
the pair (numerator, power-of-ten denominator) of the decimal literal;
none models the ValueError float() raises on inputs such as "1.2.3"
or ".". -/
def pyFloatParts (cs : List Char) : Option (Nat × Nat) :=
  if cs ≠ [] ∧ cs.all isNumChar ∧ cs.any isDig ∧ cs.count '.' ≤ 1 then
    let ip := cs.takeWhile (fun c => c != '.')
    let fp := (cs.dropWhile (fun c => c != '.')).drop 1
    some (digitsVal ip * 10 ^ fp.length + digitsVal fp, 10 ^ fp.length)
  else none

/-- Model of Python str.split on the separator dot: splits at every dot,
keeping empty pieces, with split of the empty string being one empty
piece. -/
def splitDots : List Char → List (List Char)
  | [] => [[]]
  | c :: cs =>
    if c = '.' then [] :: splitDots cs
    else
      match splitDots cs with
      | [] => [[c]]
      | p :: ps => (c :: p) :: ps

/-- One greedy digit run of the pattern \d{1,3}: the maximal leading digit
run together with the remainder, accepted only when the run has length
1..3 (see the header note on why the greedy quantifier is faithful). -/
def grabOctet (cs : List Char) : Option (List Char × List Char) :=
  let g := cs.takeWhile isDig
  if g ≠ [] ∧ g.length ≤ 3 then some (g, cs.dropWhile isDig) else none

/-- One (\d{1,3}\.) group: a 1..3 digit run followed by a literal dot. -/
def octetDot (cs : List Char) : Option (List Char) :=
  match grabOctet cs with
  | some (_, '.' :: rest) => some rest
  | _ => none

/-- The final \d{1,3}$ of the address pattern; Python's $ accepts the end
of the string or a single trailing newline. -/
def lastOctet (cs : List Char) : Bool :=
  match grabOctet cs with
  | some (_, rest) => rest == [] || rest == ['\n']
  | none => false

/-- Match of the compiled pattern of is_private_ip,
namely (\d{1,3}\.){3}\d{1,3} anchored on both sides. -/
def ipPat (cs : List Char) : Bool :=
  match ((octetDot cs).bind octetDot).bind octetDot with
  | some rest => lastOctet rest
  | none => false

/-- Embedding of is_private_ip (lines 10-26 of the source).  none would
model an uncaught exception from int(); the match guarantees the int()
calls succeed, which is proved below. -/
def is_private_ip (ip : String) : Option Bool :=
  if ipPat ip.data then
    match (splitDots ip.data).mapM pyInt with
    | some vs =>
      let a := vs.getD 0 0
      let b := vs.getD 1 0
      some (decide (a = 10 ∨ (a = 172 ∧ 16 ≤ b ∧ b ≤ 31) ∨ (a = 192 ∧ b = 168)))
    | none => none
  else some false

/-- The bandwidth units of the source, ordered as in its regex
alternation TB|GB|MB|KB|B. -/
inductive BUnit
  | B
  | KB
  | MB
  | GB
  | TB
deriving DecidableEq

/-- Scale factor of each unit: powers of 1024. -/
def unitScale : BUnit → Nat
  | .B => 1
  | .KB => 1024
  | .MB => 1024 ^ 2
  | .GB => 1024 ^ 3
  | .TB => 1024 ^ 4

/-- Uppercase spelling of each unit. -/
def unitChars : BUnit → List Char
  | .B => ['B']
  | .KB => ['K', 'B']
  | .MB => ['M', 'B']
  | .GB => ['G', 'B']
  | .TB => ['T', 'B']

/-- The alternation TB|GB|MB|KB|B tried at a fixed position: since the
five alternatives are distinguished by their first character, the order
of the alternation never matters and the match is the evident prefix
test. -/
def unitAt : List Char → Option BUnit
  | 'T' :: 'B' :: _ => some .TB
  | 'G' :: 'B' :: _ => some .GB
  | 'M' :: 'B' :: _ => some .MB
  | 'K' :: 'B' :: _ => some .KB
  | 'B' :: _ => some .B
  | _ => none

/-- Prefix match of ([\d\.]+)\s*(TB|GB|MB|KB|B) (re.match anchors at the
start only): the greedy numeric group, then whitespace, then a unit.
Returns the numeric group and the unit. -/
def bwMatch (cs : List Char) : Option (List Char × BUnit) :=
  let r := cs.takeWhile isNumChar
  if r = [] then none
  else
    match unitAt ((cs.dropWhile isNumChar).dropWhile isPySpace) with
    | some u => some (r, u)
    | none => none

/-- Embedding of convert_bandwidth_to_bytes (lines 28-49).  The input is
stripped and uppercased, then matched; no match returns 0 bytes; a match
converts the numeric group with float() - whose ValueError, modelled as
none, propagates - and truncates value * scale to an integer. -/
def convert_bandwidth_to_bytes (s : String) : Option Nat :=
  match bwMatch ((pyStrip s.data).map pyUpper) with
  | none => some 0
  | some (r, u) =>
    match pyFloatParts r with
    | none => none
    | some nd => some (nd.1 * unitScale u / nd.2)

/-- Round half to even at the integer level: rhe n d is the integer
nearest to n / d, ties to the even integer.  This is what Python's .2f
formatting applies to (100 times) an exactly-representable quotient. -/
def rhe (n d : Nat) : Nat :=
  let q := n / d
  let r := n % d
  if 2 * r < d then q
  else if d < 2 * r then q + 1
  else if q % 2 = 0 then q else q + 1

/-- Rendering of f-string value:.2f for the exact quotient n / d: the
half-even rounding of 100 * n / d, printed with two decimals. -/
def fmt2 (n d : Nat) : List Char :=
  let c := rhe (100 * n) d
  natStr (c / 100) ++ '.' :: pad2 (c % 100)

/-- Embedding of format_bandwidth (lines 51-64): descending threshold
checks TB, GB, MB, KB, else a bare integer with suffix B. -/
def format_bandwidth (n : Nat) : String :=
  if 1024 ^ 4 ≤ n then String.mk (fmt2 n (1024 ^ 4) ++ [' ', 'T', 'B'])
  else if 1024 ^ 3 ≤ n then String.mk (fmt2 n (1024 ^ 3) ++ [' ', 'G', 'B'])
  else if 1024 ^ 2 ≤ n then String.mk (fmt2 n (1024 ^ 2) ++ [' ', 'M', 'B'])
  else if 1024 ≤ n then String.mk (fmt2 n 1024 ++ [' ', 'K', 'B'])
  else String.mk (natStr n ++ [' ', 'B'])

/-- The row loop of parse_awstats_monthly_page (lines 90-108), applied to
the rows after the two header rows.  A row is one list of cell texts.
Rows with fewer than 6 cells are skipped; a row is included iff its
stripped first cell is a private IP or the literal Others; the parsed
sixth cell is accumulated.  none models an uncaught exception
(the float() ValueError of convert_bandwidth_to_bytes). -/
def extract_rows : List (List String) → Option Nat
  | [] => some 0
  | row :: rest =>
    if row.length < 6 then extract_rows rest
    else
      match is_private_ip (pyStripS (row.getD 0 "")) with
      | none => none
      | some priv =>
        if priv = false ∧ pyStripS (row.getD 0 "") ≠ "Others" then
          extract_rows rest
        else
          match convert_bandwidth_to_bytes (pyStripS (row.getD 5 "")) with
          | none => none
          | some v => (extract_rows rest).map (fun acc => v + acc)

/-- The extraction part of parse_awstats_monthly_page (lines 80-110):
soup.find returning no table is the none case and yields 0; otherwise the
first two header rows are dropped and the row loop runs. -/
def extract_private_bandwidth (table : Option (List (List String))) :
    Option Nat :=
  match table with
  | none => some 0
  | some rows => extract_rows (rows.drop 2)

/-- Embedding of parse_awstats_monthly_page (lines 66-110) over an
abstract fetch result: a transport error or non-success status (which
response.raise_for_status turns into an exception) is Except.error and
propagates; an ok page carries the located table, or none when no
bordered table is found. -/
def parse_awstats_monthly_page
    (page : Except Unit (Option (List (List String)))) : Except Unit Nat :=
  match page with
  | .error e => .error e
  | .ok tbl =>
    match extract_private_bandwidth tbl with
    | none => .error ()
    | some n => .ok n

/-- The inner month loop of fetch_and_save_monthly_data (lines 121-125):
months 1..12 in order, with continue when the start year has not reached
the start month, and break when the end year has passed the end month.
The continue test precedes the break test, as in the source. -/
def month_iter (isStart isEnd : Bool) (sm em : Nat) : List Nat → List Nat
  | [] => []
  | m :: ms =>
    if isStart && decide (m < sm) then month_iter isStart isEnd sm em ms
    else if isEnd && decide (em < m) then []
    else m :: month_iter isStart isEnd sm em ms

/-- The (year, month) pairs visited by the nested loops of
fetch_and_save_monthly_data, in visit order. -/
def periodPairs (sy sm ey em : Nat) : List (Nat × Nat) :=
  (List.range' sy (ey + 1 - sy)).flatMap fun y =>
    (month_iter (decide (y = sy)) (decide (y = ey)) sm em
      (List.range' 1 12)).map (fun m => (y, m))

/-- The Year-Month key of one period, f-string year-month:02d. -/
def keyStr (y m : Nat) : String :=
  String.mk (natStr y ++ '-' :: pad2 m)

/-- The key sequence a successful run stores into monthly_bandwidth (and
writes to the CSV), in insertion order. -/
def monthKeys (sy sm ey em : Nat) : List String :=
  (periodPairs sy sm ey em).map (fun p => keyStr p.1 p.2)

/-- The body of the period loop of fetch_and_save_monthly_data over an
abstract per-period fetch outcome: each period is fetched and parsed in
order; the first exception aborts the run before anything is written. -/
def run_periods (fetch : Nat → Nat → Except Unit (Option (List (List String)))) :
    List (Nat × Nat) → Except Unit (List (String × Nat))
  | [] => .ok []
  | p :: ps =>
    match parse_awstats_monthly_page (fetch p.1 p.2) with
    | .error e => .error e
    | .ok n =>
      match run_periods fetch ps with
      | .error e => .error e
      | .ok rest => .ok ((keyStr p.1 p.2, n) :: rest)

/-- Embedding of fetch_and_save_monthly_data (lines 112-148): the value
of Except.ok is the sequence of CSV data rows written at the end of a
fully successful run; Except.error is an exception propagating out of the
loop, in which case the with-open block writing the CSV is never
reached. -/
def fetch_and_save_monthly_data
    (fetch : Nat → Nat → Except Unit (Option (List (List String))))
    (sy sm ey em : Nat) : Except Unit (List (String × Nat)) :=
  run_periods fetch (periodPairs sy sm ey em)

/-- Trace observer for the same loop: the periods whose fetch is actually
attempted before the loop terminates (all of them on success, the prefix
up to and including the failing one otherwise). -/
def fetched_periods
    (fetch : Nat → Nat → Except Unit (Option (List (List String)))) :
    List (Nat × Nat) → List (Nat × Nat)
  | [] => []
  | p :: ps =>
    p :: (match parse_awstats_monthly_page (fetch p.1 p.2) with
          | .error _ => []
          | .ok _ => fetched_periods fetch ps)

/-- Scope predicate for theorems quantifying over arbitrary strings: on
ASCII strings the embedding above agrees with Python exactly (outside
ASCII, Python's re classes, int(), float() and upper() have Unicode
behaviour the model does not reproduce). -/
abbrev asciiStr (s : String) : Prop :=
  ∀ c ∈ s.data, c.toNat ≤ 127

/-- Specification-side description of one address group: a nonempty run
of at most three decimal digits. -/
def okGroup (g : List Char) : Prop :=
  g ≠ [] ∧ g.length ≤ 3 ∧ ∀ c ∈ g, isDig c = true

/-- Specification-side decomposition of a character list as a dotted quad
of 1..3-digit groups, optionally followed by one trailing newline (the
suffix Python's $ anchor tolerates). -/
def QuadParts (cs g1 g2 g3 g4 nl : List Char) : Prop :=
  cs = g1 ++ '.' :: (g2 ++ '.' :: (g3 ++ '.' :: (g4 ++ nl))) ∧
  okGroup g1 ∧ okGroup g2 ∧ okGroup g3 ∧ okGroup g4 ∧
  (nl = [] ∨ nl = ['\n'])

/-- A character list that admits some dotted-quad decomposition. -/
def QuadShape (cs : List Char) : Prop :=
  ∃ g1 g2 g3 g4 nl, QuadParts cs g1 g2 g3 g4 nl

/-- The private-range condition of the spec on the first two octet
values. -/
abbrev privateOctets (a b : Nat) : Prop :=
  a = 10 ∨ (a = 172 ∧ 16 ≤ b ∧ b ≤ 31) ∨ (a = 192 ∧ b = 168)

/-- The stripped first cell of a report row. -/
def rowTok (r : List String) : String :=
  pyStripS (r.getD 0 "")

/-- Specification-side row filter: at least six cells, and the token is a
private IP or the literal Others. -/
def rowIncluded (r : List String) : Bool :=
  decide (6 ≤ r.length) &&
    ((is_private_ip (rowTok r)).getD false || decide (rowTok r = "Others"))

/-- Specification-side bandwidth of a row: the parsed sixth cell, reading
a parse failure as zero the way the spec does. -/
def rowBytes (r : List String) : Nat :=
  (convert_bandwidth_to_bytes (pyStripS (r.getD 5 ""))).getD 0

/-- Specification-side total: the sum of rowBytes over the included rows
after the two header rows. -/
def specTotal (rows : List (List String)) : Nat :=
  (((rows.drop 2).filter rowIncluded).map rowBytes).sum

/-- Hypothesis under which the extraction loop completes normally: every
included row's bandwidth cell parses without the float() ValueError. -/
abbrev rowsOk (rows : List (List String)) : Prop :=
  ∀ r ∈ rows.drop 2, rowIncluded r = true →
    (convert_bandwidth_to_bytes (pyStripS (r.getD 5 ""))).isSome = true

/-- The synthetic table of the end-to-end scenario of the spec: two
header rows, then a private row, a public row and an Others row. -/
def synthTable : List (List String) :=
  [["h1"], ["h2"],
   ["10.0.0.5", "a", "b", "c", "d", "12 KB"],
   ["8.8.8.8", "a", "b", "c", "d", "5 MB"],
   ["Others", "a", "b", "c", "d", "1 GB"]]

/-- A table whose only data row is an included private-IP row carrying a
bandwidth literal float() cannot parse. -/
def badCellTable : List (List String) :=
  [[], [], ["10.0.0.5", "", "", "", "", "1.2.3 KB"]]

/-- A fetch collaborator that succeeds with an empty page for every
period except 2024-02, where the request fails. -/
def failing_fetch_example :
    Nat → Nat → Except Unit (Option (List (List String))) :=
  fun y m => if y = 2024 ∧ m = 2 then .error () else .ok none

theorem isDig_not_space {c : Char} (h : isDig c = true) : isPySpace c = false := by
  simp [isDig] at h
  simp [isPySpace]
  omega

theorem isNumChar_not_space {c : Char} (h : isNumChar c = true) :
    isPySpace c = false := by
  simp [isNumChar, isDig] at h
  simp [isPySpace]
  omega

theorem isSpace_not_num {c : Char} (h : isPySpace c = true) :
    isNumChar c = false := by
  simp [isPySpace] at h
  simp [isNumChar, isDig]
  omega

theorem isDig_isNumChar {c : Char} (h : isDig c = true) : isNumChar c = true := by
  simp [isNumChar, h]

theorem pyUpper_below {c : Char} (h : c.toNat < 97) : pyUpper c = c := by
  unfold pyUpper
  rw [if_neg]
  omega

theorem pyUpper_numChar {c : Char} (h : isNumChar c = true) : pyUpper c = c := by
  simp [isNumChar, isDig] at h
  apply pyUpper_below
  omega

theorem pyUpper_space {c : Char} (h : isPySpace c = true) : pyUpper c = c := by
  simp [isPySpace] at h
  apply pyUpper_below
  omega

theorem isDig_ne_dot {c : Char} (h : isDig c = true) : c ≠ '.' := by
  intro he
  subst he
  exact absurd h (by decide)

theorem takeWhile_append_eq (p : Char → Bool) :
    ∀ xs ys : List Char, (∀ c ∈ xs, p c = true) →
      (∀ c ∈ ys.take 1, p c = false) → (xs ++ ys).takeWhile p = xs := by
  intro xs
  induction xs with
  | nil =>
    intro ys _ h2
    cases ys with
    | nil => rfl
    | cons y t =>
      have := h2 y (by simp)
      simp [List.takeWhile_cons, this]
  | cons x xs ih =>
    intro ys h1 h2
    have hx := h1 x (by simp)
    simp only [List.cons_append, List.takeWhile_cons, hx]
    rw [ih ys (fun c hc => h1 c (by simp [hc])) h2]
    simp

theorem dropWhile_append_eq (p : Char → Bool) :
    ∀ xs ys : List Char, (∀ c ∈ xs, p c = true) →
      (∀ c ∈ ys.take 1, p c = false) → (xs ++ ys).dropWhile p = ys := by
  intro xs
  induction xs with
  | nil =>
    intro ys _ h2
    cases ys with
    | nil => rfl
    | cons y t =>
      have := h2 y (by simp)
      simp [List.dropWhile_cons, this]
  | cons x xs ih =>
    intro ys h1 h2
    have hx := h1 x (by simp)
    simp only [List.cons_append, List.dropWhile_cons, hx]
    exact ih ys (fun c hc => h1 c (by simp [hc])) h2

theorem dropWhile_eq_self_of_head (p : Char → Bool) :
    ∀ l : List Char, (∀ c ∈ l.take 1, p c = false) → l.dropWhile p = l := by
  intro l h
  cases l with
  | nil => rfl
  | cons x t =>
    have := h x (by simp)
    simp [List.dropWhile_cons, this]

theorem rdropWhile_append_keep (p : Char → Bool) (A : List Char) (hA : A ≠ [])
    (hl : p (A.getLast hA) = false) :
    ∀ ys : List Char, (A ++ ys).rdropWhile p = A ++ ys.rdropWhile p := by
  intro ys
  induction ys using List.reverseRecOn with
  | nil =>
    rw [List.append_nil, List.rdropWhile_nil, List.append_nil]
    exact List.rdropWhile_eq_self_iff.mpr (fun _ => by simp [hl])
  | append_singleton zs z ih =>
    by_cases hz : p z = true
    · rw [← List.append_assoc, List.rdropWhile_concat_pos p _ z hz, ih,
        List.rdropWhile_concat_pos p _ z hz]
    · rw [← List.append_assoc, List.rdropWhile_concat_neg p _ z (by simp [hz]),
        List.rdropWhile_concat_neg p _ z (by simp [hz]), List.append_assoc]

theorem pyStrip_append_form (A t : List Char) (hA : A ≠ [])
    (h1 : ∀ c ∈ A.take 1, isPySpace c = false)
    (hl : isPySpace (A.getLast hA) = false) :
    pyStrip (A ++ t) = A ++ t.rdropWhile isPySpace := by
  have hhead : ∀ c ∈ (A ++ t).take 1, isPySpace c = false := by
    intro c hc
    apply h1
    cases A with
    | nil => exact absurd rfl hA
    | cons a as =>
      simp at hc
      simp [hc]
  unfold pyStrip
  rw [dropWhile_eq_self_of_head isPySpace (A ++ t) hhead]
  exact rdropWhile_append_keep isPySpace A hA hl t

theorem pyStrip_eq_self (A : List Char) (hA : A ≠ [])
    (h1 : ∀ c ∈ A.take 1, isPySpace c = false)
    (hl : isPySpace (A.getLast hA) = false) : pyStrip A = A := by
  have := pyStrip_append_form A [] hA h1 hl
  simpa using this

theorem mem_take_one {c : Char} {l : List Char} (h : c ∈ l.take 1) : c ∈ l :=
  List.mem_of_mem_take h

theorem dropWhile_head_not (p : Char → Bool) :
    ∀ l : List Char, ∀ c ∈ (l.dropWhile p).take 1, p c = false := by
  intro l
  induction l with
  | nil => intro c hc; simp at hc
  | cons x t ih =>
    intro c hc
    by_cases hx : p x = true
    · rw [List.dropWhile_cons, if_pos hx] at hc
      exact ih c hc
    · rw [List.dropWhile_cons, if_neg hx] at hc
      simp at hc
      subst hc
      simpa using hx

theorem digit_facts : ∀ m, m < 10 → isDig (digitChar m) = true ∧
    (digitChar m).toNat = 48 + m ∧ isPySpace (digitChar m) = false ∧
    digitChar m ≠ '.' := by decide

theorem digitsVal_append_one (xs : List Char) (c : Char) :
    digitsVal (xs ++ [c]) = 10 * digitsVal xs + (c.toNat - 48) := by
  unfold digitsVal
  rw [List.foldl_append]
  rfl

theorem natStrAux_spec : ∀ fuel n, n < 10 ^ fuel → 0 < fuel →
    (natStrAux fuel n ≠ [] ∧ (∀ c ∈ natStrAux fuel n, isDig c = true) ∧
     digitsVal (natStrAux fuel n) = n) := by
  intro fuel
  induction fuel with
  | zero => intro n _ h0; exact absurd h0 (by omega)
  | succ fuel ih =>
    intro n hn _
    by_cases h10 : n < 10
    · have hd := digit_facts n h10
      simp only [natStrAux, if_pos h10]
      refine ⟨by simp, by simpa using hd.1, ?_⟩
      show digitsVal ([] ++ [digitChar n]) = n
      rw [digitsVal_append_one]
      simp [digitsVal, hd.2.1]
    · have hfuel : 0 < fuel := by
        by_contra hf
        have : fuel = 0 := by omega
        subst this
        simp at hn
        omega
      have hdiv : n / 10 < 10 ^ fuel := by
        rw [Nat.div_lt_iff_lt_mul (by omega)]
        calc n < 10 ^ (fuel + 1) := hn
        _ = 10 ^ fuel * 10 := by ring
      have hrec := ih (n / 10) hdiv hfuel
      have hd := digit_facts (n % 10) (Nat.mod_lt n (by omega))
      simp only [natStrAux, if_neg h10]
      refine ⟨by simp, ?_, ?_⟩
      · intro c hc
        rcases List.mem_append.mp hc with h | h
        · exact hrec.2.1 c h
        · simp at h
          subst h
          exact hd.1
      · rw [digitsVal_append_one, hrec.2.2, hd.2.1]
        omega

theorem natStr_spec (n : Nat) : natStr n ≠ [] ∧
    (∀ c ∈ natStr n, isDig c = true) ∧ digitsVal (natStr n) = n := by
  unfold natStr
  exact natStrAux_spec (n + 1) n
    (lt_of_lt_of_le (Nat.lt_pow_self (by omega) n)
      (Nat.pow_le_pow_right (by omega) (by omega))) (by omega)

theorem pyInt_digits (g : List Char) (hne : g ≠ [])
    (hdig : ∀ c ∈ g, isDig c = true) : pyInt g = some (digitsVal g) := by
  have hstrip : pyStrip g = g := by
    apply pyStrip_eq_self g hne
    · intro c hc
      exact isDig_not_space (hdig c (mem_take_one hc))
    · exact isDig_not_space (hdig _ (List.getLast_mem hne))
  unfold pyInt
  simp only [hstrip]
  rw [if_pos ⟨hne, List.all_eq_true.mpr (fun c hc => hdig c hc)⟩]

theorem pyInt_digits_nl (g : List Char) (hne : g ≠ [])
    (hdig : ∀ c ∈ g, isDig c = true) :
    pyInt (g ++ ['\n']) = some (digitsVal g) := by
  have hstrip : pyStrip (g ++ ['\n']) = g := by
    unfold pyStrip
    rw [dropWhile_eq_self_of_head isPySpace _
      (by intro c hc
          apply isDig_not_space
          apply hdig
          cases g with
          | nil => exact absurd rfl hne
          | cons a as => simp at hc; simp [hc])]
    rw [List.rdropWhile_concat_pos isPySpace g '\n' (by decide)]
    exact List.rdropWhile_eq_self_iff.mpr
      (fun h => by simp [isDig_not_space (hdig _ (List.getLast_mem h))])
  unfold pyInt
  simp only [hstrip]
  rw [if_pos ⟨hne, List.all_eq_true.mpr (fun c hc => hdig c hc)⟩]

theorem takeWhile_eq_self_of_all (p : Char → Bool) :
    ∀ l : List Char, (∀ c ∈ l, p c = true) → l.takeWhile p = l := by
  intro l
  induction l with
  | nil => intro _; rfl
  | cons x t ih =>
    intro h
    have hx := h x (by simp)
    simp only [List.takeWhile_cons, hx, if_true]
    rw [ih (fun c hc => h c (by simp [hc]))]

theorem dropWhile_eq_nil_of_all (p : Char → Bool) :
    ∀ l : List Char, (∀ c ∈ l, p c = true) → l.dropWhile p = [] := by
  intro l
  induction l with
  | nil => intro _; rfl
  | cons x t ih =>
    intro h
    have hx := h x (by simp)
    simp only [List.dropWhile_cons, hx, if_true]
    exact ih (fun c hc => h c (by simp [hc]))

theorem pyFloatParts_digits (g : List Char) (hne : g ≠ [])
    (hdig : ∀ c ∈ g, isDig c = true) :
    pyFloatParts g = some (digitsVal g, 1) := by
  have hnodot : '.' ∉ g := fun hmem => isDig_ne_dot (hdig '.' hmem) rfl
  have htake : g.takeWhile (fun c => c != '.') = g := by
    apply takeWhile_eq_self_of_all
    intro c hc
    simp [isDig_ne_dot (hdig c hc)]
  have hdrop : g.dropWhile (fun c => c != '.') = [] := by
    apply dropWhile_eq_nil_of_all
    intro c hc
    simp [isDig_ne_dot (hdig c hc)]
  unfold pyFloatParts
  rw [if_pos]
  · simp only [htake, hdrop]
    simp [digitsVal]
  · refine ⟨hne, List.all_eq_true.mpr (fun c hc => isDig_isNumChar (hdig c hc)), ?_, ?_⟩
    · cases g with
      | nil => exact absurd rfl hne
      | cons a as => simp [List.any_cons, hdig a (by simp)]
    · simp [List.count_eq_zero.mpr hnodot]

theorem grabOctet_parts (g rest : List Char) (hne : g ≠ []) (hlen : g.length ≤ 3)
    (hdig : ∀ c ∈ g, isDig c = true)
    (hrest : ∀ c ∈ rest.take 1, isDig c = false) :
    grabOctet (g ++ rest) = some (g, rest) := by
  simp only [grabOctet]
  rw [takeWhile_append_eq isDig g rest hdig hrest,
    dropWhile_append_eq isDig g rest hdig hrest, if_pos ⟨hne, hlen⟩]

theorem grabOctet_some {cs g rest : List Char}
    (h : grabOctet cs = some (g, rest)) :
    cs = g ++ rest ∧ g ≠ [] ∧ g.length ≤ 3 ∧ (∀ c ∈ g, isDig c = true) ∧
    (∀ c ∈ rest.take 1, isDig c = false) := by
  simp only [grabOctet] at h
  split at h
  · rename_i hcond
    injection h with h'
    have hg : cs.takeWhile isDig = g := congrArg Prod.fst h'
    have hr : cs.dropWhile isDig = rest := congrArg Prod.snd h'
    refine ⟨?_, hg ▸ hcond.1, hg ▸ hcond.2, ?_, ?_⟩
    · rw [← hg, ← hr, List.takeWhile_append_dropWhile]
    · intro c hc
      exact List.mem_takeWhile_imp (hg ▸ hc)
    · intro c hc
      exact dropWhile_head_not isDig cs c (hr ▸ hc)
  · cases h

theorem octetDot_parts (g rest : List Char) (hok : okGroup g) :
    octetDot (g ++ '.' :: rest) = some rest := by
  obtain ⟨hne, hlen, hdig⟩ := hok
  unfold octetDot
  rw [grabOctet_parts g ('.' :: rest) hne hlen hdig
    (by intro c hc; simp at hc; subst hc; decide)]
  rfl

theorem octetDot_some {cs rest : List Char} (h : octetDot cs = some rest) :
    ∃ g, okGroup g ∧ cs = g ++ '.' :: rest := by
  unfold octetDot at h
  split at h
  · rename_i g r heq
    injection h with h'
    subst h'
    obtain ⟨hcs, hne, hlen, hdig, _⟩ := grabOctet_some heq
    exact ⟨g, ⟨hne, hlen, hdig⟩, hcs⟩
  · cases h

theorem lastOctet_parts (g nl : List Char) (hok : okGroup g)
    (hnl : nl = [] ∨ nl = ['\n']) : lastOctet (g ++ nl) = true := by
  obtain ⟨hne, hlen, hdig⟩ := hok
  unfold lastOctet
  rw [grabOctet_parts g nl hne hlen hdig ?_]
  · rcases hnl with h | h <;> subst h <;> rfl
  · intro c hc
    rcases hnl with h | h <;> subst h
    · simp at hc
    · simp at hc
      subst hc
      decide

theorem lastOctet_some {cs : List Char} (h : lastOctet cs = true) :
    ∃ g nl, okGroup g ∧ (nl = [] ∨ nl = ['\n']) ∧ cs = g ++ nl := by
  unfold lastOctet at h
  split at h
  · rename_i g rest heq
    obtain ⟨hcs, hne, hlen, hdig, _⟩ := grabOctet_some heq
    have hr : rest = [] ∨ rest = ['\n'] := by simpa using h
    exact ⟨g, rest, ⟨hne, hlen, hdig⟩, hr, hcs⟩
  · cases h

theorem ipPat_of_parts {cs g1 g2 g3 g4 nl : List Char}
    (h : QuadParts cs g1 g2 g3 g4 nl) : ipPat cs = true := by
  obtain ⟨hcs, h1, h2, h3, h4, hnl⟩ := h
  unfold ipPat
  rw [hcs, octetDot_parts g1 _ h1, Option.some_bind, octetDot_parts g2 _ h2,
    Option.some_bind, octetDot_parts g3 _ h3]
  show lastOctet (g4 ++ nl) = true
  exact lastOctet_parts g4 nl h4 hnl

theorem ipPat_quad {cs : List Char} (h : ipPat cs = true) :
    ∃ g1 g2 g3 g4 nl, QuadParts cs g1 g2 g3 g4 nl := by
  unfold ipPat at h
  split at h
  · rename_i rest4 heq
    rcases hb1 : octetDot cs with _ | r1
    · rw [hb1] at heq
      simp at heq
    · rw [hb1, Option.some_bind] at heq
      rcases hb2 : octetDot r1 with _ | r2
      · rw [hb2] at heq
        simp at heq
      · rw [hb2, Option.some_bind] at heq
        obtain ⟨g1, ok1, e1⟩ := octetDot_some hb1
        obtain ⟨g2, ok2, e2⟩ := octetDot_some hb2
        obtain ⟨g3, ok3, e3⟩ := octetDot_some heq
        obtain ⟨g4, nl, ok4, hnl, e4⟩ := lastOctet_some h
        exact ⟨g1, g2, g3, g4, nl,
          by rw [e1, e2, e3, e4], ok1, ok2, ok3, ok4, hnl⟩
  · cases h

theorem group_dec_inj {g r g' r' : List Char} (hok : okGroup g)
    (hok' : okGroup g') (h : g ++ '.' :: r = g' ++ '.' :: r') :
    g = g' ∧ r = r' := by
  have e1 : (g ++ '.' :: r).takeWhile isDig = g :=
    takeWhile_append_eq isDig g ('.' :: r) hok.2.2
      (by intro c hc; simp at hc; subst hc; decide)
  have e2 : (g' ++ '.' :: r').takeWhile isDig = g' :=
    takeWhile_append_eq isDig g' ('.' :: r') hok'.2.2
      (by intro c hc; simp at hc; subst hc; decide)
  have hg : g = g' := by rw [← e1, ← e2, h]
  subst hg
  have := List.append_cancel_left h
  injection this with _ hr
  exact ⟨rfl, hr⟩

theorem quadParts_inj {cs g1 g2 g3 g4 nl k1 k2 k3 k4 ml : List Char}
    (ha : QuadParts cs g1 g2 g3 g4 nl) (hb : QuadParts cs k1 k2 k3 k4 ml) :
    g1 = k1 ∧ g2 = k2 := by
  obtain ⟨e, a1, a2, a3, a4, anl⟩ := ha
  obtain ⟨f, b1, b2, b3, b4, bnl⟩ := hb
  obtain ⟨hh1, hr1⟩ := group_dec_inj a1 b1 (e.symm.trans f)
  obtain ⟨hh2, _⟩ := group_dec_inj a2 b2 hr1
  exact ⟨hh1, hh2⟩

theorem splitDots_sep : ∀ g rest : List Char, (∀ c ∈ g, c ≠ '.') →
    splitDots (g ++ '.' :: rest) = g :: splitDots rest := by
  intro g
  induction g with
  | nil =>
    intro rest _
    simp [splitDots]
  | cons c t ih =>
    intro rest h
    have hc : c ≠ '.' := h c (by simp)
    simp only [List.cons_append, splitDots, if_neg hc, List.append_eq]
    rw [ih rest (fun x hx => h x (by simp [hx]))]

theorem splitDots_nodot : ∀ l : List Char, (∀ c ∈ l, c ≠ '.') →
    splitDots l = [l] := by
  intro l
  induction l with
  | nil =>
    intro _
    rfl
  | cons c t ih =>
    intro h
    have hc : c ≠ '.' := h c (by simp)
    simp only [splitDots, if_neg hc]
    rw [ih (fun x hx => h x (by simp [hx]))]

theorem is_private_of_parts {s : String} {g1 g2 g3 g4 nl : List Char}
    (h : QuadParts s.data g1 g2 g3 g4 nl) :
    is_private_ip s =
      some (decide (privateOctets (digitsVal g1) (digitsVal g2))) := by
  have hip := ipPat_of_parts h
  obtain ⟨hcs, h1, h2, h3, h4, hnl⟩ := h
  have hsplit : splitDots s.data = [g1, g2, g3, g4 ++ nl] := by
    rw [hcs,
      splitDots_sep g1 _ (fun c hc => isDig_ne_dot (h1.2.2 c hc)),
      splitDots_sep g2 _ (fun c hc => isDig_ne_dot (h2.2.2 c hc)),
      splitDots_sep g3 _ (fun c hc => isDig_ne_dot (h3.2.2 c hc)),
      splitDots_nodot (g4 ++ nl) ?_]
    intro c hc
    rcases List.mem_append.mp hc with hx | hx
    · exact isDig_ne_dot (h4.2.2 c hx)
    · rcases hnl with e | e <;> subst e
      · simp at hx
      · simp at hx
        subst hx
        decide
  have p4 : pyInt (g4 ++ nl) = some (digitsVal g4) := by
    rcases hnl with e | e <;> subst e
    · simpa using pyInt_digits g4 h4.1 h4.2.2
    · exact pyInt_digits_nl g4 h4.1 h4.2.2
  have hmap : (splitDots s.data).mapM pyInt =
      some [digitsVal g1, digitsVal g2, digitsVal g3, digitsVal g4] := by
    rw [hsplit]
    simp [List.mapM, List.mapM.loop, pyInt_digits g1 h1.1 h1.2.2,
      pyInt_digits g2 h2.1 h2.2.2, pyInt_digits g3 h3.1 h3.2.2, p4]
  unfold is_private_ip
  rw [if_pos hip, hmap]
  rfl

theorem is_private_no_match {s : String} (h : ipPat s.data = false) :
    is_private_ip s = some false := by
  unfold is_private_ip
  rw [h]
  simp

theorem pyStrip_concat_form (A : List Char) (x : Char) (t : List Char)
    (hhd : ∀ c ∈ (A ++ [x]).take 1, isPySpace c = false)
    (hx : isPySpace x = false) :
    pyStrip ((A ++ [x]) ++ t) = (A ++ [x]) ++ t.rdropWhile isPySpace := by
  apply pyStrip_append_form (A ++ [x]) t (by simp) hhd
  rw [List.getLast_concat]
  exact hx

theorem unitAt_prefix (bu : BUnit) (t : List Char) :
    unitAt (unitChars bu ++ t) = some bu := by
  cases bu <;> rfl

theorem unitChars_ne_nil (bu : BUnit) : unitChars bu ≠ [] := by
  cases bu <;> decide

theorem head_unit_not_num (bu : BUnit) (t : List Char) :
    ∀ c ∈ (unitChars bu ++ t).take 1, isNumChar c = false := by
  cases bu <;> intro c hc <;> simp [unitChars] at hc <;> subst hc <;> decide

theorem head_unit_not_space (bu : BUnit) (t : List Char) :
    ∀ c ∈ (unitChars bu ++ t).take 1, isPySpace c = false := by
  cases bu <;> intro c hc <;> simp [unitChars] at hc <;> subst hc <;> decide

theorem bwMatch_parts (n w : List Char) (bu : BUnit) (t : List Char)
    (hn : n ≠ []) (hnum : ∀ c ∈ n, isNumChar c = true)
    (hw : ∀ c ∈ w, isPySpace c = true) :
    bwMatch (n ++ (w ++ (unitChars bu ++ t))) = some (n, bu) := by
  have hhd : ∀ c ∈ (w ++ (unitChars bu ++ t)).take 1, isNumChar c = false := by
    cases w with
    | nil =>
      simpa using head_unit_not_num bu t
    | cons a as =>
      intro c hc
      simp at hc
      subst hc
      exact isSpace_not_num (hw _ (by simp))
  have htw := takeWhile_append_eq isNumChar n (w ++ (unitChars bu ++ t)) hnum hhd
  have hdw := dropWhile_append_eq isNumChar n (w ++ (unitChars bu ++ t)) hnum hhd
  have hdw2 := dropWhile_append_eq isPySpace w (unitChars bu ++ t) hw
    (head_unit_not_space bu t)
  simp only [bwMatch]
  rw [htw, hdw, hdw2, if_neg hn, unitAt_prefix bu t]

theorem map_pyUpper_id (l : List Char) (h : ∀ c ∈ l, pyUpper c = c) :
    l.map pyUpper = l := by
  rw [List.map_congr_left h]
  simp

theorem not_space_of_upper_B {x : Char} (h : pyUpper x = 'B') :
    isPySpace x = false := by
  cases hsp : isPySpace x
  · rfl
  · rw [pyUpper_space hsp] at h
    subst h
    exact absurd hsp (by decide)

theorem norm_parts (n w u t : List Char) (bu : BUnit)
    (hn : n ≠ []) (hnum : ∀ c ∈ n, isNumChar c = true)
    (hw : ∀ c ∈ w, isPySpace c = true)
    (hu : u.map pyUpper = unitChars bu) :
    (pyStrip ((n ++ (w ++ u)) ++ t)).map pyUpper =
      n ++ (w ++ (unitChars bu ++ (t.rdropWhile isPySpace).map pyUpper)) := by
  have hune : u ≠ [] := by
    intro he
    rw [he] at hu
    exact unitChars_ne_nil bu (by simpa using hu.symm)
  obtain ⟨us, x, hux⟩ : ∃ us x, u = us ++ [x] := by
    rcases List.eq_nil_or_concat u with h | ⟨us, x, h⟩
    · exact absurd h hune
    · exact ⟨us, x, by simpa [List.concat_eq_append] using h⟩
  have hx : pyUpper x = 'B' := by
    have hmap := hu
    rw [hux, List.map_append] at hmap
    have h2 : ((us.map pyUpper) ++ [pyUpper x]).getLast (by simp) =
        (unitChars bu).getLast (unitChars_ne_nil bu) := by
      congr 1
    rw [List.getLast_concat] at h2
    rw [h2]
    cases bu <;> rfl
  have hxs : isPySpace x = false := not_space_of_upper_B hx
  have hA : n ++ (w ++ u) = (n ++ (w ++ us)) ++ [x] := by
    rw [hux]
    simp
  have hAne : n ++ (w ++ u) ≠ [] := by simp [hn]
  have hhd : ∀ c ∈ (n ++ (w ++ u)).take 1, isPySpace c = false := by
    intro c hc
    cases n with
    | nil => exact absurd rfl hn
    | cons a as =>
      simp at hc
      subst hc
      exact isNumChar_not_space (hnum _ (by simp))
  have hlast : isPySpace ((n ++ (w ++ u)).getLast hAne) = false := by
    have he : (n ++ (w ++ u)).getLast hAne = x := by
      rcases hA with h
      refine Eq.trans ?_ (List.getLast_concat (a := x) (n ++ (w ++ us)))
      congr 1
    rw [he]
    exact hxs
  rw [pyStrip_append_form (n ++ (w ++ u)) t hAne hhd hlast]
  simp only [List.map_append]
  rw [map_pyUpper_id n (fun c hc => pyUpper_numChar (hnum c hc)),
    map_pyUpper_id w (fun c hc => pyUpper_space (hw c hc)), hu]
  simp [List.append_assoc]

theorem convert_digits_B (ds : List Char) (hne : ds ≠ [])
    (hdig : ∀ c ∈ ds, isDig c = true) :
    convert_bandwidth_to_bytes (String.mk (ds ++ [' ', 'B'])) =
      some (digitsVal ds) := by
  have hstrip : pyStrip (ds ++ [' ', 'B']) = ds ++ [' ', 'B'] := by
    have h := pyStrip_concat_form (ds ++ [' ']) 'B' [] ?_ (by decide)
    · simpa using h
    · intro c hc
      cases ds with
      | nil => exact absurd rfl hne
      | cons a as =>
        simp at hc
        subst hc
        exact isDig_not_space (hdig _ (by simp))
  have hmap : (ds ++ [' ', 'B']).map pyUpper = ds ++ [' ', 'B'] := by
    apply map_pyUpper_id
    intro c hc
    rcases List.mem_append.mp hc with h | h
    · exact pyUpper_numChar (isDig_isNumChar (hdig c h))
    · simp at h
      rcases h with h | h <;> subst h <;> decide
  unfold convert_bandwidth_to_bytes
  rw [show (String.mk (ds ++ [' ', 'B'])).data = ds ++ [' ', 'B'] from rfl,
    hstrip, hmap,
    show ds ++ [' ', 'B'] = ds ++ ([' '] ++ (unitChars BUnit.B ++ [])) by
      simp [unitChars],
    bwMatch_parts ds [' '] BUnit.B [] hne
      (fun c hc => isDig_isNumChar (hdig c hc))
      (by intro c hc; simp at hc; subst hc; decide)]
  show (match pyFloatParts ds with
        | none => none
        | some nd => some (nd.1 * unitScale BUnit.B / nd.2)) =
      some (digitsVal ds)
  rw [pyFloatParts_digits ds hne hdig]
  simp [unitScale]

theorem format_small (x : Nat) (h : x < 1024) :
    format_bandwidth x = String.mk (natStr x ++ [' ', 'B']) := by
  have e4 : (1024 : Nat) ^ 4 = 1099511627776 := by norm_num
  have e3 : (1024 : Nat) ^ 3 = 1073741824 := by norm_num
  have e2 : (1024 : Nat) ^ 2 = 1048576 := by norm_num
  unfold format_bandwidth
  rw [if_neg (by omega), if_neg (by omega), if_neg (by omega), if_neg (by omega)]

theorem is_private_total (s : String) : ∃ b, is_private_ip s = some b := by
  by_cases hip : ipPat s.data = true
  · obtain ⟨g1, g2, g3, g4, nl, hp⟩ := ipPat_quad hip
    exact ⟨_, is_private_of_parts hp⟩
  · exact ⟨false, is_private_no_match (by simpa using hip)⟩

theorem extract_rows_spec : ∀ l : List (List String),
    (∀ r ∈ l, rowIncluded r = true →
      (convert_bandwidth_to_bytes (pyStripS (r.getD 5 ""))).isSome = true) →
    extract_rows l = some (((l.filter rowIncluded).map rowBytes).sum) := by
  intro l
  induction l with
  | nil =>
    intro _
    rfl
  | cons row rest ih =>
    intro h
    have hrest : ∀ r ∈ rest, rowIncluded r = true →
        (convert_bandwidth_to_bytes (pyStripS (r.getD 5 ""))).isSome = true :=
      fun r hr => h r (by simp [hr])
    obtain ⟨priv, hpriv⟩ := is_private_total (pyStripS (row.getD 0 ""))
    by_cases hlen : row.length < 6
    · have hni : rowIncluded row = false := by
        unfold rowIncluded
        simp [show ¬ (6 ≤ row.length) by omega]
      simp only [extract_rows, if_pos hlen]
      rw [ih hrest]
      congr 2
      simp [List.filter_cons, hni]
    · by_cases hskip : priv = false ∧ pyStripS (row.getD 0 "") ≠ "Others"
      · have hni : rowIncluded row = false := by
          unfold rowIncluded rowTok
          rw [hpriv]
          simp only [Option.getD_some, hskip.1, decide_eq_false hskip.2,
            Bool.or_false, Bool.and_false]
        simp only [extract_rows, if_neg hlen, hpriv, if_pos hskip]
        rw [ih hrest]
        congr 2
        simp [List.filter_cons, hni]
      · have hincl : rowIncluded row = true := by
          unfold rowIncluded rowTok
          rw [hpriv]
          rcases not_and_or.mp hskip with h1 | h2
          · have hp : priv = true := by
              cases priv
              · exact absurd rfl h1
              · rfl
            simp only [Option.getD_some, hp, Bool.true_or, Bool.and_true,
              decide_eq_true_eq]
            omega
          · have ho : pyStripS (row.getD 0 "") = "Others" := not_not.mp h2
            simp only [Option.getD_some, decide_eq_true ho, Bool.or_true,
              Bool.and_true, decide_eq_true_eq]
            omega
        have hconv := h row (by simp) hincl
        obtain ⟨v, hv⟩ := Option.isSome_iff_exists.mp hconv
        simp only [extract_rows, if_neg hlen, hpriv, if_neg hskip, hv]
        rw [ih hrest]
        simp only [Option.map_some']
        rw [List.filter_cons, if_pos hincl, List.map_cons, List.sum_cons]
        congr 1
        unfold rowBytes
        rw [hv]
        rfl

theorem month_iter_ff (sm em : Nat) :
    ∀ l : List Nat, month_iter false false sm em l = l := by
  intro l
  induction l with
  | nil => rfl
  | cons m ms ih => simp [month_iter, ih]

theorem month_iter_sm_irrel (e : Bool) (sm sm' em : Nat) :
    ∀ l : List Nat, month_iter false e sm em l = month_iter false e sm' em l := by
  intro l
  induction l with
  | nil => rfl
  | cons m ms ih => simp [month_iter, ih]

theorem month_iter_start_one (e : Bool) (sm em : Nat) :
    ∀ l : List Nat, (∀ m ∈ l, 1 ≤ m) →
      month_iter true e 1 em l = month_iter false e sm em l := by
  intro l
  induction l with
  | nil =>
    intro _
    rfl
  | cons m ms ih =>
    intro hl
    have h1 : 1 ≤ m := hl m (by simp)
    have hd : (true && decide (m < 1)) = false := by
      simp
      omega
    have hd2 : (false && decide (m < sm)) = false := by simp
    simp only [month_iter, hd, hd2, Bool.false_eq_true, if_false]
    rw [ih (fun x hx => hl x (by simp [hx]))]

theorem month_body_eq (b e : Bool) (sm em : Nat) :
    month_iter b e 1 em (List.range' 1 12) =
      month_iter false e sm em (List.range' 1 12) := by
  cases b
  · exact month_iter_sm_irrel e 1 sm em _
  · exact month_iter_start_one e sm em _
      (fun m hm => (List.mem_range'_1.mp hm).1)

theorem month_iter_tf (sm em : Nat) :
    ∀ l : List Nat, month_iter true false sm em l =
      l.filter (fun m => !decide (m < sm)) := by
  intro l
  induction l with
  | nil => rfl
  | cons m ms ih =>
    by_cases hm : m < sm
    · simp [month_iter, hm, List.filter_cons, ih]
    · simp [month_iter, hm, List.filter_cons, ih]

theorem filter_range_start : ∀ sm, sm < 13 → 1 ≤ sm →
    (List.range' 1 12).filter (fun m => !decide (m < sm)) =
      List.range' sm (13 - sm) := by decide

theorem mi_end_eval : ∀ em, em < 13 → 1 ≤ em →
    month_iter false true 0 em (List.range' 1 12) = List.range' 1 em := by decide

theorem mi_both_eval : ∀ sm, sm < 13 → ∀ em, em < 13 → 1 ≤ sm → sm ≤ em →
    month_iter true true sm em (List.range' 1 12) =
      List.range' sm (em + 1 - sm) := by decide

theorem flatMap_congr_mem {α β : Type} (l : List α) (f g : α → List β)
    (h : ∀ x ∈ l, f x = g x) : l.flatMap f = l.flatMap g := by
  induction l with
  | nil => rfl
  | cons x xs ih =>
    rw [List.flatMap_cons, List.flatMap_cons, h x (by simp),
      ih (fun y hy => h y (by simp [hy]))]

theorem range_map_year (sy : Nat) : ∀ k a, 1 ≤ a → a + k ≤ 13 →
    (List.range' (12 * sy + a - 1) k).map (fun t => (t / 12, t % 12 + 1)) =
      (List.range' a k).map (fun m => (sy, m)) := by
  intro k
  induction k with
  | zero =>
    intro a _ _
    simp
  | succ k ih =>
    intro a h1 h2
    rw [List.range'_succ, List.range'_succ, List.map_cons, List.map_cons]
    congr 1
    · have hr : 12 * sy + a - 1 = (a - 1) + sy * 12 := by omega
      simp only [Prod.mk.injEq]
      constructor
      · rw [hr, Nat.add_mul_div_right _ _ (by omega : 0 < 12),
          Nat.div_eq_of_lt (by omega : a - 1 < 12)]
        omega
      · rw [hr, Nat.add_mul_mod_self_right,
          Nat.mod_eq_of_lt (by omega : a - 1 < 12)]
        omega
    · rw [show 12 * sy + a - 1 + 1 = 12 * sy + (a + 1) - 1 by omega,
        ih (a + 1) (by omega) (by omega)]

theorem periodPairs_linear : ∀ d sy sm em, 1 ≤ sm → sm ≤ 12 → 1 ≤ em → em ≤ 12 →
    (d = 0 → sm ≤ em) →
    periodPairs sy sm (sy + d) em =
      (List.range' (12 * sy + sm - 1)
        (12 * (sy + d) + em + 1 - (12 * sy + sm))).map
        (fun t => (t / 12, t % 12 + 1)) := by
  intro d
  induction d with
  | zero =>
    intro sy sm em h1 h2 h3 h4 h5
    have hse := h5 rfl
    simp only [Nat.add_zero]
    unfold periodPairs
    rw [show sy + 1 - sy = 1 by omega, List.range'_one]
    simp only [List.flatMap_cons, List.flatMap_nil, List.append_nil, decide_True]
    rw [mi_both_eval sm (by omega) em (by omega) h1 hse,
      show 12 * sy + em + 1 - (12 * sy + sm) = em + 1 - sm by omega]
    exact (range_map_year sy (em + 1 - sm) sm h1 (by omega)).symm
  | succ d ih =>
    intro sy sm em h1 h2 h3 h4 _
    rw [show sy + (d + 1) = sy + 1 + d by omega]
    unfold periodPairs
    rw [show sy + 1 + d + 1 - sy = (d + 1) + 1 by omega, List.range'_succ]
    simp only [List.flatMap_cons, decide_True]
    rw [decide_eq_false (by omega : ¬ sy = sy + 1 + d),
      month_iter_tf sm em (List.range' 1 12),
      filter_range_start sm (by omega) h1]
    have hrest : (List.range' (sy + 1) (d + 1)).flatMap
        (fun y => (month_iter (decide (y = sy)) (decide (y = sy + 1 + d)) sm em
          (List.range' 1 12)).map (fun m => (y, m))) =
        periodPairs (sy + 1) 1 (sy + 1 + d) em := by
      unfold periodPairs
      rw [show sy + 1 + d + 1 - (sy + 1) = d + 1 by omega]
      apply flatMap_congr_mem
      intro y hy
      have hy1 : sy + 1 ≤ y := (List.mem_range'_1.mp hy).1
      rw [decide_eq_false (by omega : ¬ y = sy)]
      congr 1
      exact (month_body_eq (decide (y = sy + 1)) (decide (y = sy + 1 + d))
        sm em).symm
    rw [hrest, ih (sy + 1) 1 em (by omega) (by omega) h3 h4 (fun _ => h3),
      ← range_map_year sy (13 - sm) sm h1 (by omega),
      show 12 * (sy + 1) + 1 - 1 = 12 * sy + 12 by omega,
      ← List.map_append]
    congr 1
    rw [show 12 * sy + 12 = (12 * sy + sm - 1) + 1 * (13 - sm) by omega,
      List.range'_append]
    congr 1
    omega

theorem run_periods_fail : ∀ (pre : List (Nat × Nat)) (p : Nat × Nat)
    (post : List (Nat × Nat))
    (fetch : Nat → Nat → Except Unit (Option (List (List String)))),
    (∀ q ∈ pre, ∃ n, parse_awstats_monthly_page (fetch q.1 q.2) = .ok n) →
    parse_awstats_monthly_page (fetch p.1 p.2) = .error () →
    run_periods fetch (pre ++ p :: post) = .error () ∧
      fetched_periods fetch (pre ++ p :: post) = pre ++ [p] := by
  intro pre
  induction pre with
  | nil =>
    intro p post fetch _ hp
    constructor
    · simp only [List.nil_append, run_periods, hp]
    · simp only [List.nil_append, fetched_periods, hp]
  | cons q pre ih =>
    intro p post fetch hok hp
    obtain ⟨n, hn⟩ := hok q (by simp)
    have hrec := ih p post fetch (fun r hr => hok r (by simp [hr])) hp
    constructor
    · simp only [List.cons_append, run_periods, List.append_eq, hn, hrec.1]
    · simp only [List.cons_append, fetched_periods, List.append_eq, hn, hrec.2]

theorem unitAt_some {cs : List Char} {u : BUnit} (h : unitAt cs = some u) :
    ∃ t, cs = unitChars u ++ t := by
  unfold unitAt at h
  split at h
  all_goals first
    | (injection h with h'
       subst h'
       exact ⟨_, rfl⟩)
    | cases h

theorem bwMatch_some {cs r : List Char} {u : BUnit}
    (h : bwMatch cs = some (r, u)) :
    ∃ w t, cs = r ++ (w ++ (unitChars u ++ t)) ∧ r ≠ [] ∧
      (∀ c ∈ r, isNumChar c = true) ∧ (∀ c ∈ w, isPySpace c = true) := by
  simp only [bwMatch] at h
  split at h
  · cases h
  · rename_i hne
    split at h
    · rename_i u' heq
      injection h with h'
      have hr : cs.takeWhile isNumChar = r := congrArg Prod.fst h'
      have hu : u' = u := congrArg Prod.snd h'
      subst hu
      obtain ⟨t, ht⟩ := unitAt_some heq
      refine ⟨(cs.dropWhile isNumChar).takeWhile isPySpace, t, ?_, hr ▸ hne, ?_, ?_⟩
      · conv_lhs => rw [← List.takeWhile_append_dropWhile isNumChar cs]
        rw [hr]
        congr 1
        conv_lhs =>
          rw [← List.takeWhile_append_dropWhile isPySpace (cs.dropWhile isNumChar)]
        rw [ht]
      · intro c hc
        exact List.mem_takeWhile_imp (hr ▸ hc)
      · intro c hc
        exact List.mem_takeWhile_imp hc
    · cases h

theorem convert_error_chr (s : String) :
    convert_bandwidth_to_bytes s = none ↔
      ∃ n w bu t, (pyStrip s.data).map pyUpper = n ++ (w ++ (unitChars bu ++ t)) ∧
        n ≠ [] ∧ (∀ c ∈ n, isNumChar c = true) ∧ (∀ c ∈ w, isPySpace c = true) ∧
        (n.any isDig = false ∨ 2 ≤ n.count '.') := by
  constructor
  · intro h
    unfold convert_bandwidth_to_bytes at h
    cases hbm : bwMatch ((pyStrip s.data).map pyUpper) with
    | none =>
      rw [hbm] at h
      cases h
    | some pr =>
      obtain ⟨r, u⟩ := pr
      rw [hbm] at h
      have h2 : (match pyFloatParts r with
          | none => none
          | some nd => some (nd.1 * unitScale u / nd.2)) = (none : Option Nat) := h
      cases hpf : pyFloatParts r with
      | some nd =>
        rw [hpf] at h2
        cases h2
      | none =>
        obtain ⟨w, t, hcs, hne, hnum, hw⟩ := bwMatch_some hbm
        refine ⟨r, w, u, t, hcs, hne, hnum, hw, ?_⟩
        unfold pyFloatParts at hpf
        split at hpf
        · cases hpf
        · rename_i hcond
          have hall : r.all isNumChar = true :=
            List.all_eq_true.mpr (fun c hc => hnum c hc)
          by_cases han : r.any isDig = true
          · right
            by_contra hcnt
            exact hcond ⟨hne, hall, han, by omega⟩
          · left
            simpa using han
  · rintro ⟨n, w, bu, t, hcs, hne, hnum, hw, hbad⟩
    unfold convert_bandwidth_to_bytes
    rw [hcs, bwMatch_parts n w bu t hne hnum hw]
    have hpf : pyFloatParts n = none := by
      unfold pyFloatParts
      rw [if_neg]
      rintro ⟨_, _, han, hcnt⟩
      rcases hbad with hb | hb
      · rw [han] at hb
        cases hb
      · omega
    show (match pyFloatParts n with
        | none => none
        | some nd => some (nd.1 * unitScale bu / nd.2)) = (none : Option Nat)
    rw [hpf]

theorem convert_leading_nonmatch (s : String)
    (h : isNumChar (((pyStrip s.data).map pyUpper).headD 'X') = false) :
    convert_bandwidth_to_bytes s = some 0 := by
  unfold convert_bandwidth_to_bytes
  cases hcs : (pyStrip s.data).map pyUpper with
  | nil => rfl
  | cons c cr =>
    rw [hcs] at h
    simp only [List.headD_cons] at h
    simp [bwMatch, List.takeWhile_cons, h]

/-- C1 counterexample: the claim says every unparseable literal - explicitly
including "1.2.3 KB" and ". B", whose numeric portion matches the
digits-and-dots class but is not a valid decimal - yields zero and that the
parse never raises.  In fact on both inputs the regex matches, float()
raises ValueError (modelled as none), and the error propagates: the result
is neither a byte count nor zero. -/
theorem c1_counterexample :
    convert_bandwidth_to_bytes "1.2.3 KB" = none ∧
    convert_bandwidth_to_bytes ". B" = none ∧
    ¬ convert_bandwidth_to_bytes "1.2.3 KB" = some 0 := by
  refine ⟨by decide, by decide, by decide⟩

/-- C1 amended: for every ASCII input string the parse returns the parsed
byte count, or 0 when the pattern does not match at all; however it raises
(returns none) exactly when the normalized string decomposes as a nonempty
digits-and-dots group followed by optional whitespace and a unit, and that
group holds no digit or more than one dot - the inputs on which float()
raises ValueError. -/
theorem c1_amended : ∀ s : String, asciiStr s →
    (convert_bandwidth_to_bytes s = none ↔
      ∃ n w bu t,
        (pyStrip s.data).map pyUpper = n ++ (w ++ (unitChars bu ++ t)) ∧
        n ≠ [] ∧ (∀ c ∈ n, isNumChar c = true) ∧
        (∀ c ∈ w, isPySpace c = true) ∧
        (n.any isDig = false ∨ 2 ≤ n.count '.')) := by
  intro s _
  exact convert_error_chr s

/-- C1 witness: the amended characterization applied to "1.2.3 KB". -/
theorem c1_witness :
    asciiStr "1.2.3 KB" ∧
    (convert_bandwidth_to_bytes "1.2.3 KB" = none ↔
      ∃ n w bu t,
        (pyStrip ("1.2.3 KB").data).map pyUpper =
          n ++ (w ++ (unitChars bu ++ t)) ∧
        n ≠ [] ∧ (∀ c ∈ n, isNumChar c = true) ∧
        (∀ c ∈ w, isPySpace c = true) ∧
        (n.any isDig = false ∨ 2 ≤ n.count '.')) :=
  ⟨by decide, c1_amended "1.2.3 KB" (by decide)⟩

/-- C2 counterexample: the claim says a dotted quad with an octet above
255 such as "10.300.1.1" is never classified private; the code only
checks the 1-3-digit shape, parses 300 without complaint, sees first
octet 10 and returns true. -/
theorem c2_counterexample : is_private_ip "10.300.1.1" = some true := by
  decide

/-- C2 amended: is_private_ip returns false for every ASCII string that
does not match four dot-separated groups of 1 to 3 digits, optionally
followed by a single trailing newline; the octet range 0-255 of the claim
is not checked at all, so over-255 quads that match the shape can still be
classified private. -/
theorem c2_amended : ∀ s : String, asciiStr s → ¬ QuadShape s.data →
    is_private_ip s = some false := by
  intro s _ hq
  by_cases hip : ipPat s.data = true
  · obtain ⟨g1, g2, g3, g4, nl, hp⟩ := ipPat_quad hip
    exact absurd ⟨g1, g2, g3, g4, nl, hp⟩ hq
  · exact is_private_no_match (by simpa using hip)

/-- C2 witness: the amended claim applied to the malformed "10.0.0". -/
theorem c2_witness :
    asciiStr "10.0.0" ∧ ¬ QuadShape ("10.0.0").data ∧
    is_private_ip "10.0.0" = some false := by
  have hq : ¬ QuadShape ("10.0.0").data := by
    rintro ⟨g1, g2, g3, g4, nl, hp⟩
    exact absurd (ipPat_of_parts hp) (by decide)
  exact ⟨by decide, hq, c2_amended "10.0.0" (by decide) hq⟩

/-- C3 counterexample: the claim says any string with trailing text after
the four numeric groups is rejected; but Python's $ anchor also matches
just before one final newline and int() strips it, so "10.0.0.1" followed
by a newline is classified private. -/
theorem c3_counterexample : is_private_ip "10.0.0.1\n" = some true := by
  decide

/-- C3 amended: on every ASCII string is_private_ip returns some Boolean
(never raises), and that Boolean is true exactly when the string
decomposes as four dot-separated groups of 1 to 3 digits - optionally
followed by one trailing newline, the suffix the $ anchor tolerates - whose
first two octet values satisfy the private-range rules (10.x.x.x,
172.16-31.x.x, 192.168.x.x). -/
theorem c3_amended : ∀ s : String, asciiStr s →
    ∃ b, is_private_ip s = some b ∧
      (b = true ↔ ∃ g1 g2 g3 g4 nl, QuadParts s.data g1 g2 g3 g4 nl ∧
        privateOctets (digitsVal g1) (digitsVal g2)) := by
  intro s _
  by_cases hip : ipPat s.data = true
  · obtain ⟨g1, g2, g3, g4, nl, hp⟩ := ipPat_quad hip
    refine ⟨_, is_private_of_parts hp, ?_⟩
    rw [decide_eq_true_eq]
    constructor
    · intro hpriv
      exact ⟨g1, g2, g3, g4, nl, hp, hpriv⟩
    · rintro ⟨k1, k2, k3, k4, ml, hp2, hpriv2⟩
      obtain ⟨e1, e2⟩ := quadParts_inj hp2 hp
      rw [← e1, ← e2]
      exact hpriv2
  · refine ⟨false, is_private_no_match (by simpa using hip), ?_⟩
    constructor
    · intro h
      exact absurd h (by decide)
    · rintro ⟨k1, k2, k3, k4, ml, hp2, _⟩
      exact absurd (ipPat_of_parts hp2) hip

/-- C3 witness: the amended characterization applied to "10.0.0.1". -/
theorem c3_witness :
    asciiStr "10.0.0.1" ∧
    ∃ b, is_private_ip "10.0.0.1" = some b ∧
      (b = true ↔ ∃ g1 g2 g3 g4 nl,
        QuadParts ("10.0.0.1").data g1 g2 g3 g4 nl ∧
        privateOctets (digitsVal g1) (digitsVal g2)) :=
  ⟨by decide, c3_amended "10.0.0.1" (by decide)⟩

/-- C4: the parse scales the decimal magnitude by powers of 1024 and
truncates toward zero, with the concrete values the spec lists, units
matched case-insensitively ("12 kb"), the one-letter unit B at scale 1
("3 B"), truncation ("2.7 B" gives 2), and 0 for non-matching input. -/
theorem c4_parse_values :
    convert_bandwidth_to_bytes "12 KB" = some 12288 ∧
    convert_bandwidth_to_bytes "2.5 MB" = some 2621440 ∧
    convert_bandwidth_to_bytes "1 GB" = some 1073741824 ∧
    convert_bandwidth_to_bytes "0.5 TB" = some 549755813888 ∧
    convert_bandwidth_to_bytes "garbage" = some 0 ∧
    convert_bandwidth_to_bytes "" = some 0 ∧
    convert_bandwidth_to_bytes "12 kb" = some 12288 ∧
    convert_bandwidth_to_bytes "3 B" = some 3 ∧
    convert_bandwidth_to_bytes "2.7 B" = some 2 := by
  decide

/-- C5 counterexample: the claim says the extractor always returns the sum
of the parsed bandwidth cells of the included rows (with unparseable cells
counting zero, per the spec's best-effort policy).  A table whose included
row carries the literal "1.2.3 KB" makes the extractor propagate float()'s
ValueError instead of returning that sum. -/
theorem c5_counterexample :
    extract_private_bandwidth (some badCellTable) = none ∧
    specTotal badCellTable = 0 ∧
    ¬ extract_private_bandwidth (some badCellTable) =
        some (specTotal badCellTable) := by
  refine ⟨by decide, by decide, by decide⟩

/-- C5 amended: whenever every included row's bandwidth cell parses
without error, the extractor returns exactly the sum of the parsed sixth
cells over the rows that remain after dropping the two header rows,
skipping rows with fewer than six cells, and keeping a row iff its
stripped first cell is the literal Others or a private IP; a missing table
yields 0; and on the spec's synthetic table the total is 1073754112. -/
theorem c5_amended :
    (∀ rows : List (List String), rowsOk rows →
      extract_private_bandwidth (some rows) = some (specTotal rows)) ∧
    extract_private_bandwidth none = some 0 ∧
    extract_private_bandwidth (some synthTable) = some 1073754112 := by
  refine ⟨?_, rfl, by decide⟩
  intro rows h
  unfold rowsOk at h
  show extract_rows (rows.drop 2) = some (specTotal rows)
  unfold specTotal
  exact extract_rows_spec (rows.drop 2) h

/-- C5 witness: the amended claim applied to the synthetic table. -/
theorem c5_witness :
    rowsOk synthTable ∧
    extract_private_bandwidth (some synthTable) = some (specTotal synthTable) :=
  ⟨by decide, c5_amended.1 synthTable (by decide)⟩

/-- C6: format_bandwidth picks the largest unit whose scale the byte count
meets (thresholds descending TB, GB, MB, KB), renders two decimals for
those units and a bare integer with suffix B below 1024; checked on the
spec's values and on every threshold boundary. -/
theorem c6_format_values :
    format_bandwidth 0 = "0 B" ∧
    format_bandwidth 1536 = "1.50 KB" ∧
    format_bandwidth 1073741824 = "1.00 GB" ∧
    format_bandwidth 1023 = "1023 B" ∧
    format_bandwidth 1024 = "1.00 KB" ∧
    format_bandwidth (1024 ^ 2 - 1) = "1024.00 KB" ∧
    format_bandwidth (1024 ^ 2) = "1.00 MB" ∧
    format_bandwidth (1024 ^ 3 - 1) = "1024.00 MB" ∧
    format_bandwidth (1024 ^ 3) = "1.00 GB" ∧
    format_bandwidth (1024 ^ 4 - 1) = "1024.00 GB" ∧
    format_bandwidth (1024 ^ 4) = "1.00 TB" := by
  decide

/-- C7: parse is inverse-compatible with format; in the bare-integer
range below 1024 the round trip is exact: parsing the formatted string
returns the original byte count. -/
theorem c7_roundtrip_small :
    ∀ x : Nat, x < 1024 →
      convert_bandwidth_to_bytes (format_bandwidth x) = some x := by
  intro x h
  rw [format_small x h]
  obtain ⟨hne, hdig, hval⟩ := natStr_spec x
  rw [convert_digits_B (natStr x) hne hdig, hval]

/-- C7 witness: the round trip at 5 bytes. -/
theorem c7_witness :
    5 < 1024 ∧ convert_bandwidth_to_bytes (format_bandwidth 5) = some 5 :=
  ⟨by decide, c7_roundtrip_small 5 (by decide)⟩

/-- C8: for every range whose start does not exceed its end
lexicographically (months in 1..12), the loop visits exactly the calendar
months from start to end inclusive, in strictly increasing order with no
gaps - the visited (year, month) pairs are the image of one contiguous
interval of linear month indices - and the stored keys are the zero-padded
Year-Month labels; on the year-crossing example the key list is exactly
2023-11, 2023-12, 2024-01, 2024-02. -/
theorem c8_period_keys :
    (∀ sy sm ey em : Nat, 1 ≤ sm → sm ≤ 12 → 1 ≤ em → em ≤ 12 →
      (sy < ey ∨ (sy = ey ∧ sm ≤ em)) →
      periodPairs sy sm ey em =
        (List.range' (12 * sy + sm - 1)
          (12 * ey + em + 1 - (12 * sy + sm))).map
          (fun t => (t / 12, t % 12 + 1))) ∧
    monthKeys 2023 11 2024 2 = ["2023-11", "2023-12", "2024-01", "2024-02"] := by
  constructor
  · intro sy sm ey em h1 h2 h3 h4 h5
    obtain ⟨d, rfl⟩ : ∃ d, ey = sy + d :=
      ⟨ey - sy, by rcases h5 with h | h <;> omega⟩
    exact periodPairs_linear d sy sm em h1 h2 h3 h4
      (by
        intro h0
        rcases h5 with h | h
        · omega
        · exact h.2)
  · decide

/-- C8 witness: the general statement applied to the range 2023-11 to
2024-02. -/
theorem c8_witness :
    (1 ≤ 11 ∧ 2023 < 2024) ∧
    periodPairs 2023 11 2024 2 =
      (List.range' (12 * 2023 + 11 - 1)
        (12 * 2024 + 2 + 1 - (12 * 2023 + 11))).map
        (fun t => (t / 12, t % 12 + 1)) :=
  ⟨⟨by decide, by decide⟩,
    c8_period_keys.1 2023 11 2024 2 (by decide) (by decide) (by decide)
      (by decide) (Or.inl (by decide))⟩

/-- C9: if fetching some period's page raises (non-success status or
transport error) while every earlier period succeeded, the whole run
returns that error - so the CSV rows are never produced - and the loop
attempts no period beyond the failing one. -/
theorem c9_abort_on_failure :
    ∀ (fetch : Nat → Nat → Except Unit (Option (List (List String))))
      (sy sm ey em : Nat) (pre : List (Nat × Nat)) (p : Nat × Nat)
      (post : List (Nat × Nat)),
      periodPairs sy sm ey em = pre ++ p :: post →
      (∀ q ∈ pre, ∃ n, parse_awstats_monthly_page (fetch q.1 q.2) = .ok n) →
      fetch p.1 p.2 = .error () →
      fetch_and_save_monthly_data fetch sy sm ey em = .error () ∧
        fetched_periods fetch (periodPairs sy sm ey em) = pre ++ [p] := by
  intro fetch sy sm ey em pre p post hsplit hok hferr
  have hp : parse_awstats_monthly_page (fetch p.1 p.2) = .error () := by
    rw [hferr]
    rfl
  unfold fetch_and_save_monthly_data
  rw [hsplit]
  exact run_periods_fail pre p post fetch hok hp

/-- C9 witness: a two-period run whose second fetch fails: the run errors
and only the two periods up to the failure are attempted. -/
theorem c9_witness :
    periodPairs 2024 1 2024 2 = [(2024, 1)] ++ (2024, 2) :: [] ∧
    failing_fetch_example 2024 2 = .error () ∧
    fetch_and_save_monthly_data failing_fetch_example 2024 1 2024 2 =
      .error () ∧
    fetched_periods failing_fetch_example (periodPairs 2024 1 2024 2) =
      [(2024, 1)] ++ [(2024, 2)] := by
  have h := c9_abort_on_failure failing_fetch_example 2024 1 2024 2
    [(2024, 1)] (2024, 2) [] (by decide)
    (by
      intro q hq
      simp at hq
      subst hq
      exact ⟨0, rfl⟩)
    rfl
  exact ⟨by decide, rfl, h.1, h.2⟩

/-- C10: the parse matches only at the start of the stripped, uppercased
string and ignores everything after the unit: a decimal number, optional
whitespace, a unit (in any letter case) and arbitrary trailing characters
parse exactly like the number-plus-unit prefix alone, while a leading
character outside the digits-and-dots class makes the parse return 0. -/
theorem c10_prefix_match :
    (∀ (n w u t : List Char) (bu : BUnit), n ≠ [] →
      (∀ c ∈ n, isNumChar c = true) → (pyFloatParts n).isSome = true →
      (∀ c ∈ w, isPySpace c = true) → u.map pyUpper = unitChars bu →
      convert_bandwidth_to_bytes (String.mk ((n ++ (w ++ u)) ++ t)) =
        convert_bandwidth_to_bytes (String.mk (n ++ (w ++ u)))) ∧
    (∀ s : String, asciiStr s →
      isNumChar (((pyStrip s.data).map pyUpper).headD 'X') = false →
      convert_bandwidth_to_bytes s = some 0) := by
  constructor
  · intro n w u t bu hn hnum _ hw hu
    unfold convert_bandwidth_to_bytes
    rw [show (String.mk ((n ++ (w ++ u)) ++ t)).data = (n ++ (w ++ u)) ++ t
        from rfl,
      show (String.mk (n ++ (w ++ u))).data = n ++ (w ++ u) from rfl,
      norm_parts n w u t bu hn hnum hw hu]
    have h2 : (pyStrip (n ++ (w ++ u))).map pyUpper =
        n ++ (w ++ (unitChars bu ++ ([] : List Char))) := by
      have h3 := norm_parts n w u [] bu hn hnum hw hu
      simpa using h3
    rw [h2, bwMatch_parts n w bu ((t.rdropWhile isPySpace).map pyUpper)
        hn hnum hw,
      bwMatch_parts n w bu [] hn hnum hw]
  · intro s _ h
    exact convert_leading_nonmatch s h

/-- C10 witness: part one on "5 MBs" (with the lowercase variant of the
unit exercised through the mapping hypothesis) and part two on "x12 KB". -/
theorem c10_witness :
    (convert_bandwidth_to_bytes
        (String.mk ((['5'] ++ ([' '] ++ ['M', 'B'])) ++ ['s'])) =
      convert_bandwidth_to_bytes (String.mk (['5'] ++ ([' '] ++ ['M', 'B'])))) ∧
    (asciiStr "x12 KB" ∧ convert_bandwidth_to_bytes "x12 KB" = some 0) :=
  ⟨c10_prefix_match.1 ['5'] [' '] ['M', 'B'] ['s'] BUnit.MB (by decide)
      (by decide) (by decide) (by decide) (by decide),
    by decide,
    c10_prefix_match.2 "x12 KB" (by decide) (by decide)⟩
